import Mathlib

/-!
# Verification of serde-querystring against its specification

Shallow embedding of the query-string decoding library `serde-querystring`
(percent-decoding, the four parsing modes, scalar conversion, the
bracket-path sequence reconstruction, the recursion-depth budget and the
web-framework extractor) together with proofs settling the frozen claims.

Bytes are modelled as `Nat` (the numeric value of the byte); byte slices as
`List Nat`.  Fallible operations return `Except ErrorKind _`; a Rust panic
(out-of-bounds index) is modelled as `none` of an `Option`-returning
function.  The file is organised as definitions first (each one translated
from a named function of the source), then the theorems settling the
claims.
-/

namespace SerdeQuerystring

/-- Error kinds: the union of the error vocabulary used by the embedded
code (the `ErrorKind` enum of `src/error.rs` plus the error enum variants
used by the `de` module: `MaximumDepthReached`, `EofReached`,
`InvalidMapKey`, `InvalidMapValue`). -/
inductive ErrorKind where
  | UnexpectedType
  | InvalidLength
  | InvalidEncoding
  | InvalidNumber
  | InvalidBoolean
  | InvalidMapKey
  | InvalidMapValue
  | EofReached
  | MaximumDepthReached
  | Other
  deriving DecidableEq, Repr

instance {ε α : Type} [DecidableEq ε] [DecidableEq α] : DecidableEq (Except ε α)
  | .error e, .error f =>
    if h : e = f then isTrue (by rw [h]) else isFalse (by simp [h])
  | .error _, .ok _ => isFalse (by simp)
  | .ok _, .error _ => isFalse (by simp)
  | .ok a, .ok b =>
    if h : a = b then isTrue (by rw [h]) else isFalse (by simp [h])

/-- Value of an ASCII hexadecimal digit (`0`-`9`, `a`-`f`, `A`-`F`),
`none` otherwise; this is `char::from(b).to_digit(16)` as used by
`decode.rs`. -/
def hexDigit (b : Nat) : Option Nat :=
  if 48 ≤ b ∧ b ≤ 57 then some (b - 48)
  else if 97 ≤ b ∧ b ≤ 102 then some (b - 97 + 10)
  else if 65 ≤ b ∧ b ≤ 70 then some (b - 65 + 10)
  else none

/-- Model of `decode.rs` `parse_char(h, l)`: combines two hex digits into
one byte. -/
def parse_char (h l : Nat) : Option Nat :=
  match hexDigit h, hexDigit l with
  | some hv, some lv => some (hv * 16 + lv)
  | _, _ => none

/-- Model of `decode.rs` `parse_bytes`: percent-decoding.  The Rust loop
walks a cursor over the slice keeping a pending literal segment
(`slice[index..cursor]`) and a scratch buffer; the output is the scratch
followed by the pending segment.  Functionally, each loop arm emits the
bytes it appends:
* `b'+'` (43) emits a space (32) and advances one byte;
* `b'%'` (37) with at least two following bytes and a valid escape emits
  the decoded byte and advances three bytes;
* `b'%'` with an invalid escape advances one byte, leaving the `%` in the
  pending literal segment, so scanning resumes at the very next byte;
* `b'%'` with fewer than two bytes left likewise advances one byte;
* any other byte stays in the pending segment (passes through unchanged).
The `Borrowed`/`Copied` distinction of the returned `Reference` does not
change the produced bytes and is not modelled. -/
def parse_bytes : List Nat → List Nat
  | [] => []
  | 43 :: rest => 32 :: parse_bytes rest
  | 37 :: a :: b :: rest =>
    match parse_char a b with
    | some v => v :: parse_bytes rest
    | none => 37 :: parse_bytes (a :: b :: rest)
  | 37 :: rest => 37 :: parse_bytes rest
  | c :: rest => c :: parse_bytes rest

/-- Byte list of a string literal (used to write concrete test inputs). -/
def bytes (s : String) : List Nat := s.data.map Char.toNat

/-! ## The flat pair grammar

`src/parsers/urlencoded.rs`, `src/parsers/duplicate.rs` and
`src/parsers/delimiter.rs` all tokenize with the same `Key`/`Value`/`Pair`
code: a key is scanned up to the first `&` (38) or `=` (61); the value, if
present, is everything after the `=` up to the next `&`. -/

/-- Model of the flat `Key::parse`: scan bytes until `&` or `=`. -/
def flatKeyParse (s : List Nat) : List Nat :=
  s.takeWhile fun c => !(c = 38 || c = 61)

/-- Model of the flat `Value::parse`, applied to the remainder of the pair
after the key: `none` when the remainder is empty or starts with `&`;
otherwise the bytes strictly after the first byte (the `=`) up to the next
`&`.  The scan stops only at `&`, so later `=` bytes stay inside the
value. -/
def flatValueParse : List Nat → Option (List Nat)
  | [] => none
  | c :: rest => if c = 38 then none else some (rest.takeWhile fun c => !(c = 38))

/-- Model of `Pair::skip_len`: how far to move past this pair (the `=` and
`&` bytes included). -/
def flatSkipLen (key : List Nat) (value : Option (List Nat)) : Nat :=
  match value with
  | some v => key.length + v.length + 2
  | none => key.length + 1

/-- Model of the flat `Pair::parse`: a key followed by an optional value. -/
def flatPairParse (s : List Nat) : List Nat × Option (List Nat) :=
  let k := flatKeyParse s
  (k, flatValueParse (s.drop k.length))

/-- The scan loop shared by `UrlEncodedQS::parse`, `DuplicateQS::parse`
and `DelimiterQS::parse`, with an explicit fuel (the loop consumes at
least one byte per pair, so `s.length` fuel is always enough; the fuel is
only a termination device, not part of the modelled code). -/
def flatPairsGo (fuel : Nat) (s : List Nat) : List (List Nat × Option (List Nat)) :=
  match fuel with
  | 0 => []
  | fuel + 1 =>
    if s = [] then []
    else
      let p := flatPairParse s
      p :: flatPairsGo fuel (s.drop (flatSkipLen p.1 p.2))

/-- Tokenization of the whole input into raw `(key, optional value)`
pairs, in input order (the `while index < slice.len()` loop of the three
flat parsers). -/
def flatPairs (s : List Nat) : List (List Nat × Option (List Nat)) :=
  flatPairsGo s.length s

/-! ## Association tables

The parsers group pairs in a `BTreeMap` keyed by the percent-decoded key.
The claims only consult the table through single-key lookup and the
per-key value collection, so the table is embedded as an association list
with unique keys: `alistSet` models `*old_pair = pair` / `insert`
(overwrite on an existing key, insert otherwise), `alistAppend` models
`values.push(pair)` / `insert(vec![pair])`.  The `BTreeMap`'s sorted
iteration order over distinct keys is not modelled (no claim depends on
it). -/

/-- Lookup in an association table (first matching entry). -/
def alistGet {V : Type} : List (List Nat × V) → List Nat → Option V
  | [], _ => none
  | (k', v) :: t, k => if k' = k then some v else alistGet t k

/-- Overwrite the entry for `k` if present, insert at the end otherwise. -/
def alistSet {V : Type} : List (List Nat × V) → List Nat → V → List (List Nat × V)
  | [], k, v => [(k, v)]
  | (k', v') :: t, k, v =>
    if k' = k then (k', v) :: t else (k', v') :: alistSet t k v

/-- Append `v` to the value list of `k` if present, insert `[v]`
otherwise. -/
def alistAppend {V : Type} :
    List (List Nat × List V) → List Nat → V → List (List Nat × List V)
  | [], k, v => [(k, [v])]
  | (k', vs) :: t, k, v =>
    if k' = k then (k', vs ++ [v]) :: t else (k', vs) :: alistAppend t k v

/-! ## The three flat parsing modes -/

/-- Model of `UrlEncodedQS::parse`: each pair's decoded key is looked up;
an existing entry is overwritten by a later pair (last write wins). -/
def urlencodedParse (s : List Nat) : List (List Nat × Option (List Nat)) :=
  (flatPairs s).foldl (fun t p => alistSet t (parse_bytes p.1) p.2) []

/-- Model of `DuplicateQS::parse`: all pairs of a key are kept, in
encounter order. -/
def duplicateParse (s : List Nat) : List (List Nat × List (Option (List Nat))) :=
  (flatPairs s).foldl (fun t p => alistAppend t (parse_bytes p.1) p.2) []

/-- Model of `DelimiterQS::parse`: same overwrite semantics as
`UrlEncodedQS::parse` (the delimiter only matters when a value is split
for a sequence, which no claim here exercises). -/
def delimiterParse (s : List Nat) : List (List Nat × Option (List Nat)) :=
  (flatPairs s).foldl (fun t p => alistSet t (parse_bytes p.1) p.2) []

/-- The pairs of the input whose decoded key is `k`, in input order (used
to state the last-write-wins and encounter-order properties). -/
def occurrences (s : List Nat) (k : List Nat) : List (List Nat × Option (List Nat)) :=
  (flatPairs s).filter fun p => parse_bytes p.1 = k

/-! ## Primitive scalar conversion -/

/-- Numeric value of a digit string. -/
def digitsVal (ds : List Nat) : Nat := ds.foldl (fun acc d => acc * 10 + (d - 48)) 0

/-- Extensional model of `lexical::parse::<usize>` as used by
`PairsDeserializer::to_seq_values` (`src/parsers/brackets.rs`): the whole
slice must be one or more decimal digits and the value must fit in 64
bits. -/
def parseUsize (s : List Nat) : Option Nat :=
  if s ≠ [] ∧ s.all (fun d => decide (48 ≤ d ∧ d ≤ 57)) then
    if digitsVal s < 2 ^ 64 then some (digitsVal s) else none
  else none

/-- Extensional model of the bounds-checked signed radix-10 integer parse
used for scalar values (`RawSlice::parse_int` in `src/de/slices.rs`, built
on `atoi::from_radix_10_signed_checked` with a full-length check): an
optional sign followed by one or more digits, the whole slice consumed,
checked against the target width's bounds; anything else is
`InvalidNumber`. -/
def parse_int (lo hi : Int) (s : List Nat) : Except ErrorKind Int :=
  match s with
  | [] => .error .InvalidNumber
  | c :: rest =>
    let (sign, digits) : Int × List Nat :=
      if c = 45 then (-1, rest) else if c = 43 then (1, rest) else (1, s)
    if digits ≠ [] ∧ digits.all (fun d => decide (48 ≤ d ∧ d ≤ 57)) then
      let v : Int := sign * (digitsVal digits : Int)
      if lo ≤ v ∧ v ≤ hi then .ok v else .error .InvalidNumber
    else .error .InvalidNumber

/-- The `i64` range used when a scalar signed-integer field is bound. -/
def bindScalarInt (s : List Nat) : Except ErrorKind Int :=
  parse_int (-(2 ^ 63)) (2 ^ 63 - 1) s

/-- Model of `parse_bool` (`ValueDeserializer::parse_bool` in
`src/de/value.rs` and `RawSlice::parse_bool` in `src/de/slices.rs`, which
are the same table): the empty slice, `1`, `on` and `true` are `true`;
`0`, `off` and `false` are `false`; every other literal is an
`InvalidBoolean` error.  The source dispatches on the slice length first
and then compares content; the guarded match arms are equivalent to the
direct content comparisons below because each literal determines its
length. -/
def parse_bool (s : List Nat) : Except ErrorKind Bool :=
  if s = [] then .ok true
  else if s = bytes "1" then .ok true
  else if s = bytes "0" then .ok false
  else if s = bytes "on" then .ok true
  else if s = bytes "off" then .ok false
  else if s = bytes "true" then .ok true
  else if s = bytes "false" then .ok false
  else .error .InvalidBoolean

/-! ## Scalar binding per mode

The (missing-from-tree) `QSDeserializer` glue iterates the parsed table
and hands each struct field the table entry of the matching decoded key;
the per-mode value adapters below are the cited code that picks which raw
slice a scalar field sees. -/

/-- Scalar slice for `UrlEncodedQS`: the stored (last) pair's value, with
a missing value defaulting to the empty slice
(`Option<RawSlice>` + `unwrap_or_default`). -/
def urlencodedScalar (s k : List Nat) : Option (List Nat) :=
  (alistGet (urlencodedParse s) k).map fun ov => ov.getD []

/-- Raw slices handed to the binder by `DuplicateQS::into_iter`
(`RawSlice(v.1.map(|v| v.slice()).unwrap_or_default())` per pair). -/
def duplicateRawSlices (s k : List Nat) : Option (List (List Nat)) :=
  (alistGet (duplicateParse s) k).map (List.map fun ov => ov.getD [])

/-- Model of `DuplicateValueIter::into_single_slice`: the last raw slice
(the iterator is nonempty by construction; the `expect` is modelled by a
default). -/
def intoSingleSlice (vals : List (List Nat)) : List Nat :=
  (vals.getLast?).getD []

/-- Scalar slice for `DuplicateQS`: the last occurrence. -/
def duplicateScalar (s k : List Nat) : Option (List Nat) :=
  (duplicateRawSlices s k).map intoSingleSlice

/-- Scalar slice for `DelimiterQS`: the whole undivided stored value
(`SeparatorValues::into_single_slice` returns `RawSlice(self.slice)`). -/
def delimiterScalar (s k : List Nat) : Option (List Nat) :=
  (alistGet (delimiterParse s) k).map fun ov => ov.getD []

/-- Model of `DuplicateValueIter::into_sized_iterator`: the raw slices if
their number matches the requested arity, `InvalidLength` otherwise. -/
def intoSizedIterator (vals : List (List Nat)) (size : Nat) :
    Except ErrorKind (List (List Nat)) :=
  if vals.length = size then .ok vals else .error .InvalidLength

/-- Model of `PairVecDeserializer::deserialize_tuple` /
`deserialize_tuple_struct` (`src/de/pair.rs`): the collected values are
visited as a sequence only when their number equals the requested arity,
otherwise the binding fails with `InvalidLength`. -/
def pairVecDeserializeTuple {α : Type} (vals : List α) (size : Nat) :
    Except ErrorKind (List α) :=
  if vals.length = size then .ok vals else .error .InvalidLength

/-- Sequence binding for `DuplicateQS` (unsized targets such as `Vec`):
every raw slice in encounter order, each bound as a scalar integer. -/
def duplicateSeqBind (s k : List Nat) : Option (Except ErrorKind (List Int)) :=
  (duplicateRawSlices s k).map fun vs => vs.mapM bindScalarInt

/-- Model of `SizedValuesIterator::next` (`src/parsers/delimiter.rs`),
drained into the list of raw slices the iterator yields.  An exhausted
slice ends the iteration regardless of the remaining count; with
`remaining = some 0` the iterator stops (extra tokens are silently
dropped); with `remaining = some 1` it hands out the **entire remainder**
of the value, later delimiter bytes included, as the final element;
otherwise it emits the bytes up to the next delimiter (or the whole rest
when none is left) and decrements the count.  The fuel is `slice.length`
(each emitted token consumes at least one byte); it is only a termination
device. -/
def sizedValuesGo (delim : Nat) : Nat → List Nat → Option Nat → List (List Nat)
  | _, [], _ => []
  | 0, _, _ => []
  | fuel + 1, slice, remaining =>
    match remaining with
    | some 0 => []
    | some 1 => [slice]
    | _ =>
      let tok := slice.takeWhile fun c => !(c = delim)
      if tok.length = slice.length then [slice]
      else
        tok :: sizedValuesGo delim fuel (slice.drop (tok.length + 1))
          (remaining.map fun r => r - 1)

/-- The slice sequence produced by `SizedValuesIterator::new(slice,
delimiter, size)`. -/
def sizedValuesList (slice : List Nat) (delim : Nat) (size : Option Nat) :
    List (List Nat) :=
  sizedValuesGo delim slice.length slice size

/-- Model of binding a fixed-arity tuple, tuple struct or array in
`Delimiter` mode: `SeparatorValues::into_sized_iterator`
(`src/parsers/delimiter.rs`) performs **no** length check and always
returns `Ok` with a `SizedValuesIterator` capped at the requested arity;
the fixed-arity binding then draws exactly `size` elements from that
iterator (the `next`-and-`transpose` sequence access), so it succeeds
exactly when the iterator yields `size` slices, and an early end surfaces
through the binding protocol's `custom` error constructor, which
`src/de/error.rs` maps to kind `Other` — nothing on this path constructs
`InvalidLength`. -/
def delimiterDeserializeTuple (s k : List Nat) (delim : Nat) (size : Nat) :
    Option (Except ErrorKind (List (List Nat))) :=
  (alistGet (delimiterParse s) k).map fun ov =>
    if (sizedValuesList (ov.getD []) delim (some size)).length = size
    then .ok (sizedValuesList (ov.getD []) delim (some size))
    else .error .Other

/-! ## The bracket-path parser (`src/parsers/brackets.rs`) -/

/-- A bracket-mode key state: the current part of the key and the
yet-to-be-parsed remainder after the first `[` (the Rust
`Key<'a>(&'a [u8], Option<&'a [u8]>)`). -/
structure BKey where
  name : List Nat
  remains : Option (List Nat)
  deriving DecidableEq, Repr

/-- Model of the brackets `Key::parse_remains`: the rest of the key after
the opening bracket, scanned until `&` or `=`. -/
def bracketsParseRemains (s : List Nat) : List Nat :=
  s.takeWhile fun c => !(c = 38 || c = 61)

/-- Scanning loop of the brackets `Key::parse`, with the already-scanned
name bytes accumulated in reverse: stops at `[` (91) or its percent-coded
form `%5B` (switching to `parse_remains`), or at `&`/`=`; any other byte
(including a `%` that does not encode `[`) joins the name. -/
def bracketsKeyParseGo (acc : List Nat) : List Nat → BKey × Nat
  | [] => (⟨acc.reverse, none⟩, acc.length)
  | c :: rest =>
    if c = 91 then
      let r := bracketsParseRemains rest
      (⟨acc.reverse, some r⟩, acc.length + 1 + r.length)
    else if c = 37 then
      match rest with
      | a :: b :: rest2 =>
        if parse_char a b = some 91 then
          let r := bracketsParseRemains rest2
          (⟨acc.reverse, some r⟩, acc.length + 3 + r.length)
        else bracketsKeyParseGo (37 :: acc) rest
      | _ => bracketsKeyParseGo (37 :: acc) rest
    else if c = 38 ∨ c = 61 then (⟨acc.reverse, none⟩, acc.length)
    else bracketsKeyParseGo (c :: acc) rest

/-- Model of the brackets `Key::parse`: returns the key state and the
number of bytes consumed. -/
def bracketsKeyParse (s : List Nat) : BKey × Nat :=
  bracketsKeyParseGo [] s

/-- Model of the brackets `Value::parse`: `none` when the remainder is
empty or starts with `&`; otherwise the bytes after the first byte (the
`=`) up to the next `&`, together with the number of bytes consumed. -/
def bracketsValueParse : List Nat → Option (List Nat) × Nat
  | [] => (none, 0)
  | c :: rest =>
    if c = 38 then (none, 0)
    else
      let v := rest.takeWhile fun c => !(c = 38)
      (some v, 1 + v.length)

/-- Model of the brackets `Pair::parse`: key, optional value, and the skip
length to the next pair. -/
def bracketsPairParse (s : List Nat) : (BKey × Option (List Nat)) × Nat :=
  let (k, klen) := bracketsKeyParse s
  let (v, vlen) := bracketsValueParse (s.drop klen)
  ((k, v), klen + vlen + 1)

/-- The `BracketsQS::parse` scan loop with fuel (each pair consumes at
least one byte, so `s.length` fuel is enough). -/
def bracketsPairsGo (fuel : Nat) (s : List Nat) : List (BKey × Option (List Nat)) :=
  match fuel with
  | 0 => []
  | fuel + 1 =>
    if s = [] then []
    else
      let (p, skip) := bracketsPairParse s
      p :: bracketsPairsGo fuel (s.drop skip)

/-- All bracket-mode pairs of the input, in input order. -/
def bracketsPairs (s : List Nat) : List (BKey × Option (List Nat)) :=
  bracketsPairsGo s.length s

/-- Model of `BracketsQS::parse`: pairs grouped by the decoded root name,
each key's pairs kept in encounter order. -/
def bracketsParse (s : List Nat) : List (List Nat × List (BKey × Option (List Nat))) :=
  (bracketsPairs s).foldl (fun t p => alistAppend t (parse_bytes p.1.name) p) []

/-- The bracket-mode pairs of the input whose decoded root name is `k`,
in input order. -/
def bracketsOccurrences (s k : List Nat) : List (BKey × Option (List Nat)) :=
  (bracketsPairs s).filter fun p => parse_bytes p.1.name = k

/-- Scanning loop of the brackets `Key::subkey`: looks in the remainder
for the first `]` (93) or percent-coded `%5D`, returning
`(key_end_index, index)` exactly as the Rust loop computes them (`index`
stops on the `]`, or two bytes later for `%5D`, or at the end of the
remainder). -/
def subkeyScanGo : List Nat → Nat → Nat × Nat
  | [], i => (i, i)
  | c :: rest, i =>
    if c = 93 then (i, i)
    else if c = 37 then
      match rest with
      | a :: b :: _ =>
        if parse_char a b = some 93 then (i, i + 2)
        else subkeyScanGo rest (i + 1)
      | _ => subkeyScanGo rest (i + 1)
    else subkeyScanGo rest (i + 1)

/-- Model of the brackets `Key::subkey`: one more bracket level of the
key, or `none` when there is no remainder. -/
def bracketsSubkey (k : BKey) : Option BKey :=
  match k.remains with
  | none => none
  | some remains =>
    let (keyEnd, i) := subkeyScanGo remains 0
    if i + 1 < remains.length ∧ remains.get? (i + 1) = some 91 then
      some ⟨remains.take keyEnd, some (remains.drop (i + 2))⟩
    else if i + 3 < remains.length ∧ remains.get? (i + 1) = some 37 ∧
        ((remains.get? (i + 2)).bind fun a =>
          (remains.get? (i + 3)).bind fun b => parse_char a b) = some 91 then
      some ⟨remains.take keyEnd, some (remains.drop (i + 4))⟩
    else some ⟨remains.take keyEnd, none⟩

/-- Model of the brackets `Key::is_empty`. -/
def bracketsKeyIsEmpty (k : BKey) : Bool :=
  match k.remains with
  | some r => decide (k.name = [] ∧ r = [])
  | none => decide (k.name = [])

/-- Sub-key classification performed inside
`PairsDeserializer::to_seq_values`: a pair with no sub-key or an empty
sub-key gets index 0; a nonempty sub-key must parse as an unsigned index,
otherwise the binding fails with `InvalidNumber`. -/
def subkeyIndex (p : BKey × Option (List Nat)) : Except ErrorKind Nat :=
  match bracketsSubkey p.1 with
  | some sk =>
    if ¬ bracketsKeyIsEmpty sk then
      match parseUsize sk.name with
      | some n => .ok n
      | none => .error .InvalidNumber
    else .ok 0
  | none => .ok 0

/-- Stable ordered insertion: the element goes before the first entry with
a strictly larger key, after all entries with a smaller-or-equal key. -/
def insertSorted (a : Nat × List Nat) : List (Nat × List Nat) → List (Nat × List Nat)
  | [] => [a]
  | b :: t => if b.1 < a.1 then b :: insertSorted a t else a :: b :: t

/-- Extensional model of the stable `Vec::sort_by_key(|item| item.0)`
used by `to_seq_values` (insertion sort from the right is stable and
ascending). -/
def sortByKey (l : List (Nat × List Nat)) : List (Nat × List Nat) :=
  l.foldr insertSorted []

/-- Sequential collect of the classified `(index, raw value)` pairs
(Rust `.map(...).collect::<Result<Vec<_>, _>>()`: stops at the first
error). -/
def collectSeqValues : List (BKey × Option (List Nat)) →
    Except ErrorKind (List (Nat × List Nat))
  | [] => .ok []
  | p :: t => do
    let i ← subkeyIndex p
    let rest ← collectSeqValues t
    pure ((i, p.2.getD []) :: rest)

/-- Model of `PairsDeserializer::to_seq_values`
(`src/parsers/brackets.rs`): classify every pair's sub-key as a numeric
index (0 for empty or absent sub-keys, `InvalidNumber` for names), pair it
with the raw value (`unwrap_or_default`), and stably sort ascending by
index. -/
def toSeqValues (ps : List (BKey × Option (List Nat))) :
    Except ErrorKind (List (Nat × List Nat)) := do
  let values ← collectSeqValues ps
  pure (sortByKey values)

/-- Model of the brackets `deserialize_tuple`: the sequence values are
visited only when their number equals the requested arity, otherwise
`InvalidLength`. -/
def bracketsDeserializeTuple (ps : List (BKey × Option (List Nat))) (len : Nat) :
    Except ErrorKind (List (Nat × List Nat)) := do
  let values ← toSeqValues ps
  if values.length = len then pure values else throw .InvalidLength

/-- Sequence binding for `BracketsQS`: the sorted raw slices, each bound
as a scalar integer. -/
def bracketsSeqBind (s k : List Nat) : Option (Except ErrorKind (List Int)) :=
  (alistGet (bracketsParse s) k).map fun ps =>
    (toSeqValues ps).bind fun l => (l.map (·.2)).mapM bindScalarInt

/-- Scalar slice for `BracketsQS` (the slice-forwarding macro of
`PairsDeserializer` uses `self.0.last().unwrap().1.unwrap_or_default()`):
the last pair's value. -/
def bracketsScalar (s k : List Nat) : Option (List Nat) :=
  (alistGet (bracketsParse s) k).map fun ps =>
    ((ps.getLast?).map fun p => p.2.getD []).getD []

/-! ## The recursion-depth budget (`src/de/mod.rs`, `src/de/stash/mod.rs`,
`src/de/stash/map.rs`, `src/de/map.rs`)

`Deserializer::new` starts with `remaining_depth: 64`; every map / struct
/ seq / tuple / enum entry point errors with `MaximumDepthReached` when
the budget is 0 (`deserialize_map` and the `MapAccess` / `EnumAccess`
implementations), and every descent into a nested value runs a new
deserializer with `remaining_depth - 1`
(`Deserializer::new_with_depth(value, self.stash.remaining_depth - 1)`,
`PairMap::new(pairs, self.remaining_depth - 1)`).  The serde visitor
plumbing between those points (the `MapEntry` glue) is absent from the
tree; following the spec, each descent consumes exactly one unit, so a
purely nested input is modelled by its nesting level count. -/

/-- Depth-limited descent: a leaf needs no budget; entering one nesting
level fails when the budget is 0 and otherwise continues with a budget
smaller by one. -/
def deserializeNested : Nat → Nat → Except ErrorKind Unit
  | _, 0 => .ok ()
  | d, n + 1 =>
    if d = 0 then .error .MaximumDepthReached else deserializeNested (d - 1) n

/-- The budget constant of `Deserializer::new` (`src/de/mod.rs`). -/
def RECURSION_BUDGET : Nat := 64

/-- Decoding a value nested `n` levels deep starts from the fresh
budget. -/
def decodeNested (n : Nat) : Except ErrorKind Unit :=
  deserializeNested RECURSION_BUDGET n

/-! ## Error-offset translation (`src/de/value.rs`) -/

/-- Model of `de/value.rs` `parse_char(bytes)` applied to an explicit
slice: `bytes[0]` and `bytes[1]` are indexed, so a slice shorter than two
bytes panics when the indexing is reached (`none` of the outer `Option`);
`some none` is the regular `None` return through `?`. -/
def parse_char_slice (b : List Nat) : Option (Option Nat) :=
  match b.get? 0 with
  | none => none
  | some b0 =>
    match hexDigit b0 with
    | none => some none
    | some hv =>
      match b.get? 1 with
      | none => none
      | some b1 =>
        match hexDigit b1 with
        | none => some none
        | some lv => some (some (hv * 16 + lv))

/-- Loop of `ValueDeserializer::index_before_decoding`: walks `cursor`
from 0 while `cursor < index`; at a `%` with at least two following bytes
it evaluates `parse_char(&self.slice[(cursor + 1)..(cursor + 2)])` — a
one-byte sub-slice — and adds 3 to `index` if that returns `Some`; the
cursor always advances by one.  `slice[cursor]` on an out-of-range cursor
and `bytes[1]` inside `parse_char` are panics (`none`). -/
def indexBeforeDecodingGo (slice : List Nat) : Nat → Nat → Option Nat
  | index, cursor =>
    if cursor < index then
      match slice.get? cursor with
      | none => none
      | some c =>
        if c = 37 ∧ cursor + 2 < slice.length then
          match parse_char_slice (slice.drop (cursor + 1) |>.take 1) with
          | none => none
          | some (some _) => indexBeforeDecodingGo slice (index + 3) (cursor + 1)
          | some none => indexBeforeDecodingGo slice index (cursor + 1)
        else indexBeforeDecodingGo slice index (cursor + 1)
    else some index
termination_by index cursor => index - cursor + 3 * (slice.length - cursor)
decreasing_by
  all_goals omega

/-- Model of `ValueDeserializer::index_before_decoding`. -/
def indexBeforeDecoding (slice : List Nat) (index : Nat) : Option Nat :=
  indexBeforeDecodingGo slice index 0

/-- Offset translation as the specification words it (a second definition
following the spec, for comparison with the code): each consumed 3-byte
escape before the decoded offset contributes 3 original bytes, every other
consumed byte contributes 1, so the original offset adds 2 for every
escape strictly before the decoded offset. -/
def specOffsetTranslation : List Nat → Nat → Nat
  | _, 0 => 0
  | [], d => d
  | 37 :: a :: b :: rest, d + 1 =>
    match parse_char a b with
    | some _ => 3 + specOffsetTranslation rest d
    | none => 1 + specOffsetTranslation (a :: b :: rest) d
  | _ :: rest, d + 1 => 1 + specOffsetTranslation rest d

/-! ## The axum extractor (`serde-querystring-axum/src/lib.rs`) -/

/-- The parse mode selected by the extractor configuration. -/
inductive ParseMode where
  | UrlEncoded
  | Duplicate
  | Delimiter (delim : Nat)
  | Brackets
  deriving DecidableEq, Repr

/-- An HTTP response as far as the claims are concerned: a status code and
a textual body. -/
structure Response where
  status : Nat
  body : String
  deriving DecidableEq, Repr

/-- Model of `QueryStringConfig`: the parse mode (default `Duplicate`) and
an optional custom error handler (the library `Error` is represented by
its kind). -/
structure QueryStringConfig where
  mode : ParseMode := .Duplicate
  ehandler : Option (ErrorKind → Response) := none

/-- Model of `QueryStringError::default()`: HTTP 400 with the fixed
body. -/
def defaultQueryStringError : Response :=
  ⟨400, "Failed to deserialize query string"⟩

/-- The decode the extractor runs for a target with one scalar integer
field `n` under the default `Duplicate` mode: missing key is a serde
missing-field error (`Other`), otherwise the last occurrence's raw slice
is bound as a scalar integer. -/
def decodeParamsN (query : List Nat) : Except ErrorKind Int :=
  match duplicateScalar query (bytes "n") with
  | some slice => bindScalarInt slice
  | none => .error .Other

/-- Model of `QueryString::from_request_parts` for that target: on decode
failure, a configured custom handler's response is used verbatim,
otherwise the default `QueryStringError` response. -/
def fromRequestParts (cfg : QueryStringConfig) (query : List Nat) :
    Except Response Int :=
  match decodeParamsN query with
  | .ok v => .ok v
  | .error e =>
    .error
      (match cfg.ehandler with
       | some h => h e
       | none => defaultQueryStringError)

/-! ## Helper lemmas -/

/-- A byte that is neither `+` nor `%` passes through `parse_bytes`
unchanged. -/
theorem parse_bytes_other (c : Nat) (rest : List Nat) (h43 : c ≠ 43) (h37 : c ≠ 37) :
    parse_bytes (c :: rest) = c :: parse_bytes rest := by
  simp [parse_bytes, h43, h37]

/-- A slice containing no `+` and no `%` decodes to itself. -/
theorem parse_bytes_id (s : List Nat) (h : ∀ c ∈ s, c ≠ 37 ∧ c ≠ 43) :
    parse_bytes s = s := by
  induction s with
  | nil => rfl
  | cons c rest ih =>
    have hc := h c (List.mem_cons_self c rest)
    rw [parse_bytes_other c rest hc.2 hc.1,
      ih fun x hx => h x (List.mem_cons_of_mem c hx)]

theorem takeWhile_append_all {α : Type} (p : α → Bool) (l1 l2 : List α)
    (h : ∀ c ∈ l1, p c = true) :
    (l1 ++ l2).takeWhile p = l1 ++ l2.takeWhile p := by
  induction l1 with
  | nil => simp
  | cons c t ih =>
    have hc := h c (List.mem_cons_self c t)
    simp [List.takeWhile_cons, hc, ih fun x hx => h x (List.mem_cons_of_mem c hx)]

theorem takeWhile_all {α : Type} (p : α → Bool) (l : List α)
    (h : ∀ c ∈ l, p c = true) : l.takeWhile p = l := by
  induction l with
  | nil => simp
  | cons c t ih =>
    have hc := h c (List.mem_cons_self c t)
    simp [List.takeWhile_cons, hc, ih fun x hx => h x (List.mem_cons_of_mem c hx)]

theorem alistGet_set_eq {V : Type} (t : List (List Nat × V)) (k : List Nat) (v : V) :
    alistGet (alistSet t k v) k = some v := by
  induction t with
  | nil => simp [alistSet, alistGet]
  | cons e t ih =>
    obtain ⟨k', v'⟩ := e
    by_cases h : k' = k <;> simp [alistSet, alistGet, h, ih]

theorem alistGet_set_ne {V : Type} (t : List (List Nat × V)) (k k2 : List Nat) (v : V)
    (hne : k ≠ k2) : alistGet (alistSet t k v) k2 = alistGet t k2 := by
  induction t with
  | nil => simp [alistSet, alistGet, hne]
  | cons e t ih =>
    obtain ⟨k', v'⟩ := e
    by_cases h : k' = k
    · subst h
      simp [alistSet, alistGet, hne]
    · simp [alistSet, alistGet, h, ih]

theorem alistGet_append_eq {V : Type} (t : List (List Nat × List V)) (k : List Nat)
    (v : V) :
    alistGet (alistAppend t k v) k = some ((alistGet t k).getD [] ++ [v]) := by
  induction t with
  | nil => simp [alistAppend, alistGet]
  | cons e t ih =>
    obtain ⟨k', vs⟩ := e
    by_cases h : k' = k <;> simp [alistAppend, alistGet, h, ih]

theorem alistGet_append_ne {V : Type} (t : List (List Nat × List V)) (k k2 : List Nat)
    (v : V) (hne : k ≠ k2) : alistGet (alistAppend t k v) k2 = alistGet t k2 := by
  induction t with
  | nil => simp [alistAppend, alistGet, hne]
  | cons e t ih =>
    obtain ⟨k', vs⟩ := e
    by_cases h : k' = k
    · subst h
      simp [alistAppend, alistGet, hne]
    · simp [alistAppend, alistGet, h, ih]

theorem foldl_set_get {P V : Type} (keyf : P → List Nat) (valf : P → V)
    (ps : List P) (t : List (List Nat × V)) (k : List Nat) :
    alistGet (ps.foldl (fun t p => alistSet t (keyf p) (valf p)) t) k =
      match (ps.filter fun p => keyf p = k).getLast? with
      | some p => some (valf p)
      | none => alistGet t k := by
  induction ps generalizing t with
  | nil => simp
  | cons p ps ih =>
    rw [List.foldl_cons, ih]
    by_cases h : keyf p = k
    · have hf : ((p :: ps).filter fun p => keyf p = k)
          = p :: (ps.filter fun p => keyf p = k) :=
        List.filter_cons_of_pos (by simp [h])
      rw [hf]
      rcases hl : ps.filter (fun p => keyf p = k) with _ | ⟨q, qs⟩
      · simp [h, alistGet_set_eq]
      · rw [List.getLast?_cons_cons]
        obtain ⟨r, hr⟩ := Option.isSome_iff_exists.mp
          (List.getLast?_isSome.mpr (List.cons_ne_nil q qs))
        rw [hr]
    · have hf : ((p :: ps).filter fun p => keyf p = k)
          = ps.filter fun p => keyf p = k :=
        List.filter_cons_of_neg (by simp [h])
      rw [hf]
      rcases hl : (ps.filter fun p => keyf p = k).getLast? with _ | q <;>
        simp [hl, alistGet_set_ne _ _ _ _ h]

theorem foldl_append_get {P V : Type} (keyf : P → List Nat) (valf : P → V)
    (ps : List P) (t : List (List Nat × List V)) (k : List Nat) :
    alistGet (ps.foldl (fun t p => alistAppend t (keyf p) (valf p)) t) k =
      match alistGet t k, (ps.filter fun p => keyf p = k).map valf with
      | some l, c => some (l ++ c)
      | none, [] => none
      | none, c => some c := by
  induction ps generalizing t with
  | nil =>
    rcases h : alistGet t k with _ | l <;> simp [h]
  | cons p ps ih =>
    rw [List.foldl_cons, ih]
    by_cases h : keyf p = k
    · have hf : ((p :: ps).filter fun p => keyf p = k)
          = p :: (ps.filter fun p => keyf p = k) :=
        List.filter_cons_of_pos (by simp [h])
      rw [hf, List.map_cons]
      rw [show keyf p = k from h, alistGet_append_eq]
      rcases ht : alistGet t k with _ | l
      · rcases (ps.filter fun p => keyf p = k).map valf with _ | _ <;> simp
      · simp
    · have hf : ((p :: ps).filter fun p => keyf p = k)
          = ps.filter fun p => keyf p = k :=
        List.filter_cons_of_neg (by simp [h])
      rw [hf, alistGet_append_ne _ _ _ _ h]

/-- The table of `UrlEncodedQS` holds, for each decoded key, exactly the
last occurrence of that key (by byte position). -/
theorem urlencodedParse_get (s : List Nat) (k : List Nat) :
    alistGet (urlencodedParse s) k = ((occurrences s k).getLast?).map (·.2) := by
  have h1 := foldl_set_get (fun p => parse_bytes p.1) (fun p => p.2) (flatPairs s) [] k
  rw [urlencodedParse, h1]
  have hocc : ((flatPairs s).filter fun p => parse_bytes p.1 = k) = occurrences s k := rfl
  rw [hocc]
  rcases h : (occurrences s k).getLast? with _ | p <;> rfl

/-- Same statement for the `DelimiterQS` table (identical overwrite
loop). -/
theorem delimiterParse_get (s : List Nat) (k : List Nat) :
    alistGet (delimiterParse s) k = ((occurrences s k).getLast?).map (·.2) := by
  have h1 := foldl_set_get (fun p => parse_bytes p.1) (fun p => p.2) (flatPairs s) [] k
  rw [delimiterParse, h1]
  have hocc : ((flatPairs s).filter fun p => parse_bytes p.1 = k) = occurrences s k := rfl
  rw [hocc]
  rcases h : (occurrences s k).getLast? with _ | p <;> rfl

/-- The table of `DuplicateQS` holds, for each decoded key, all of its
occurrences' values in encounter order. -/
theorem duplicateParse_get (s : List Nat) (k : List Nat) :
    alistGet (duplicateParse s) k =
      (if (occurrences s k) = [] then none
       else some ((occurrences s k).map (·.2))) := by
  have h1 := foldl_append_get (fun p => parse_bytes p.1) (fun p => p.2) (flatPairs s) [] k
  rw [duplicateParse, h1]
  have hocc : ((flatPairs s).filter fun p => parse_bytes p.1 = k) = occurrences s k := rfl
  rw [hocc]
  rcases h : occurrences s k with _ | ⟨p, ps⟩ <;> simp [alistGet]

/-- The table of `BracketsQS` holds, for each decoded root name, all of
its pairs in encounter order. -/
theorem bracketsParse_get (s : List Nat) (k : List Nat) :
    alistGet (bracketsParse s) k =
      (if (bracketsOccurrences s k) = [] then none
       else some (bracketsOccurrences s k)) := by
  have h1 := foldl_append_get (fun p => parse_bytes p.1.name) (fun p => p)
    (bracketsPairs s) [] k
  rw [bracketsParse, h1]
  have hocc : ((bracketsPairs s).filter fun p => parse_bytes p.1.name = k)
      = bracketsOccurrences s k := rfl
  rw [hocc]
  rcases h : bracketsOccurrences s k with _ | ⟨p, ps⟩ <;> simp [alistGet]

theorem getLast?_map {α β : Type} (f : α → β) (l : List α) :
    (l.map f).getLast? = (l.getLast?).map f := by
  induction l with
  | nil => simp
  | cons a t ih =>
    rcases t with _ | ⟨b, t⟩
    · simp
    · simpa using ih

theorem insertSorted_perm (a : Nat × List Nat) (l : List (Nat × List Nat)) :
    (insertSorted a l).Perm (a :: l) := by
  induction l with
  | nil => simp [insertSorted]
  | cons b t ih =>
    by_cases h : b.1 < a.1
    · simp only [insertSorted, h, if_true]
      exact (ih.cons b).trans (List.Perm.swap a b t)
    · simp [insertSorted, h]

theorem sortByKey_perm (l : List (Nat × List Nat)) : (sortByKey l).Perm l := by
  induction l with
  | nil => simp [sortByKey]
  | cons a t ih =>
    have : sortByKey (a :: t) = insertSorted a (sortByKey t) := rfl
    rw [this]
    exact (insertSorted_perm a (sortByKey t)).trans (ih.cons a)

theorem insertSorted_sorted (a : Nat × List Nat) (l : List (Nat × List Nat))
    (h : List.Pairwise (fun x y => x.1 ≤ y.1) l) :
    List.Pairwise (fun x y => x.1 ≤ y.1) (insertSorted a l) := by
  induction l with
  | nil => simp [insertSorted]
  | cons b t ih =>
    by_cases hb : b.1 < a.1
    · simp only [insertSorted, hb, if_true]
      refine List.Pairwise.cons (fun x hx => ?_) (ih h.of_cons)
      rcases List.mem_cons.mp ((insertSorted_perm a t).mem_iff.mp hx) with hxa | hxt
      · rw [hxa]
        exact Nat.le_of_lt hb
      · exact List.rel_of_pairwise_cons h hxt
    · simp only [insertSorted, hb, if_false]
      refine List.Pairwise.cons (fun x hx => ?_) h
      rcases List.mem_cons.mp hx with hxb | hxt
      · rw [hxb]
        exact Nat.le_of_not_lt hb
      · exact le_trans (Nat.le_of_not_lt hb) (List.rel_of_pairwise_cons h hxt)

theorem sortByKey_sorted (l : List (Nat × List Nat)) :
    List.Pairwise (fun x y => x.1 ≤ y.1) (sortByKey l) := by
  induction l with
  | nil => simp [sortByKey]
  | cons a t ih => exact insertSorted_sorted a (sortByKey t) ih

/-- The only error `subkeyIndex` produces is `InvalidNumber`. -/
theorem subkeyIndex_error (p : BKey × Option (List Nat)) (e : ErrorKind)
    (h : subkeyIndex p = .error e) : e = .InvalidNumber := by
  unfold subkeyIndex at h
  split at h
  · split at h
    · split at h
      · simp at h
      · simp only [Except.error.injEq] at h
        exact h.symm
    · simp at h
  · simp at h

theorem collectSeqValues_error (ps : List (BKey × Option (List Nat)))
    (h : ∃ p ∈ ps, subkeyIndex p = .error .InvalidNumber) :
    collectSeqValues ps = .error .InvalidNumber := by
  obtain ⟨p, hmem, herr⟩ := h
  induction ps with
  | nil => simp at hmem
  | cons q t ih =>
    rw [collectSeqValues]
    rcases List.mem_cons.mp hmem with hq | ht
    · rw [← hq, herr]
      rfl
    · rcases hq : subkeyIndex q with e | i
      · have he := subkeyIndex_error q e hq
        rw [he]
        rfl
      · rw [ih ht]
        rfl

theorem deserializeNested_step (d n : Nat) :
    deserializeNested (d + 1) (n + 1) = deserializeNested d n := by
  rw [deserializeNested, if_neg (Nat.succ_ne_zero d), Nat.add_sub_cancel]

theorem deserializeNested_ok_iff (d n : Nat) :
    deserializeNested d n = .ok () ↔ n ≤ d := by
  induction n generalizing d with
  | zero => simp [deserializeNested]
  | succ n ih =>
    rcases d with _ | d
    · simp [deserializeNested]
    · rw [deserializeNested_step, ih d]
      omega

theorem deserializeNested_error (d n : Nat) (h : d < n) :
    deserializeNested d n = .error .MaximumDepthReached := by
  induction n generalizing d with
  | zero => omega
  | succ n ih =>
    rcases d with _ | d
    · simp [deserializeNested]
    · rw [deserializeNested_step]
      exact ih d (by omega)

/-- A byte that is none of `[`, `%`, `&`, `=` joins the accumulated name
and scanning continues. -/
theorem bracketsKeyParseGo_cons_other (acc : List Nat) (c : Nat) (rest : List Nat)
    (h91 : c ≠ 91) (h37 : c ≠ 37) (h38 : c ≠ 38) (h61 : c ≠ 61) :
    bracketsKeyParseGo acc (c :: rest) = bracketsKeyParseGo (c :: acc) rest := by
  rcases rest with _ | ⟨a, rest1⟩
  · simp [bracketsKeyParseGo, h91, h37, h38, h61]
  · rcases rest1 with _ | ⟨b, rest2⟩ <;>
      simp [bracketsKeyParseGo, h91, h37, h38, h61]

/-- A key made of plain bytes (no `&`, `=`, `[`, `%`) followed by `=` and
a value is scanned entirely as the name, with nothing folded into a
bracket remainder. -/
theorem bracketsKeyParseGo_plain (k v acc : List Nat)
    (hk : ∀ c ∈ k, c ≠ 38 ∧ c ≠ 61 ∧ c ≠ 91 ∧ c ≠ 37) :
    bracketsKeyParseGo acc (k ++ 61 :: v)
      = (⟨acc.reverse ++ k, none⟩, acc.length + k.length) := by
  induction k generalizing acc with
  | nil => simp [bracketsKeyParseGo]
  | cons c t ih =>
    have hc := hk c (List.mem_cons_self c t)
    rw [List.cons_append,
      bracketsKeyParseGo_cons_other acc c (t ++ 61 :: v) hc.2.2.1 hc.2.2.2 hc.1 hc.2.1,
      ih (c :: acc) fun x hx => hk x (List.mem_cons_of_mem c hx)]
    simp [List.reverse_cons, List.append_assoc, Nat.add_assoc, Nat.add_comm,
      Nat.add_left_comm]

/-! ## Claim theorems -/

/-- C1: percent-decoding maps each `+` to a space and each `%` followed by
two valid hex digits to the single byte those digits encode; a `%` not
followed by two valid hex digits (including a `%` in the final one or two
bytes) is kept literally in the output and the scan advances by exactly
one byte past the `%`, so a well-formed `%XX` escape beginning at the very
next byte is still decoded; in particular `Test%%25` decodes to
`Test%%`. -/
theorem percent_decoding_correct :
    (∀ rest, parse_bytes (43 :: rest) = 32 :: parse_bytes rest) ∧
    (∀ a b rest v, parse_char a b = some v →
      parse_bytes (37 :: a :: b :: rest) = v :: parse_bytes rest) ∧
    (∀ a b rest, parse_char a b = none →
      parse_bytes (37 :: a :: b :: rest) = 37 :: parse_bytes (a :: b :: rest)) ∧
    (∀ a, parse_bytes [37, a] = 37 :: parse_bytes [a]) ∧
    parse_bytes [37] = [37] ∧
    (∀ s, (∀ c ∈ s, c ≠ 37 ∧ c ≠ 43) → parse_bytes s = s) ∧
    parse_bytes (bytes "Test%%25") = bytes "Test%%" ∧
    parse_bytes (bytes "Test%8") = bytes "Test%8" ∧
    parse_bytes (bytes "Test%as") = bytes "Test%as" := by
  refine ⟨fun rest => rfl, fun a b rest v h => ?_, fun a b rest h => ?_,
    fun a => ?_, rfl, parse_bytes_id, by decide, by decide, by decide⟩
  · simp [parse_bytes, h]
  · simp [parse_bytes, h]
  · simp [parse_bytes]

/-- Witness for `percent_decoding_correct`: the escape equations applied at
concrete bytes (`%41` decodes to `A`; a `%` directly followed by `%25` is
kept literal while `%25` still decodes). -/
theorem percent_decoding_correct_witness :
    parse_bytes (37 :: 52 :: 49 :: []) = 65 :: parse_bytes [] ∧
    parse_bytes (37 :: 37 :: 50 :: [53]) = 37 :: parse_bytes (37 :: 50 :: [53]) ∧
    parse_bytes (bytes "abc") = bytes "abc" :=
  ⟨percent_decoding_correct.2.1 52 49 [] 65 (by decide),
   percent_decoding_correct.2.2.1 37 50 [53] (by decide),
   percent_decoding_correct.2.2.2.2.2.1 (bytes "abc") (by decide)⟩

/-- C2: the deserializer starts with a nesting-depth budget of 64
(`Deserializer::new`); each descent into a nested shape consumes exactly
one unit of budget, and a descent with budget 0 fails with
`MaximumDepthReached`; consequently a value nested to exactly the maximum
depth (64 levels) decodes and one nested one level beyond fails with
`MaximumDepthReached`. -/
theorem depth_budget_correct :
    RECURSION_BUDGET = 64 ∧
    (∀ d n, deserializeNested (d + 1) (n + 1) = deserializeNested d n) ∧
    (∀ n, deserializeNested 0 (n + 1) = .error .MaximumDepthReached) ∧
    (∀ n, decodeNested n = .ok () ↔ n ≤ RECURSION_BUDGET) ∧
    (∀ n, RECURSION_BUDGET < n → decodeNested n = .error .MaximumDepthReached) :=
  ⟨rfl, deserializeNested_step, fun _ => rfl,
   fun n => deserializeNested_ok_iff 64 n,
   fun n h => deserializeNested_error 64 n h⟩

/-- Witness for `depth_budget_correct`: nesting depth 64 succeeds, 65
fails. -/
theorem depth_budget_correct_witness :
    decodeNested 64 = .ok () ∧ decodeNested 65 = .error .MaximumDepthReached :=
  ⟨(depth_budget_correct.2.2.2.1 64).mpr (by decide),
   depth_budget_correct.2.2.2.2 65 (by decide)⟩

/-- C3: in every parse mode, binding a repeated key to a scalar field
yields the value of the last occurrence by byte position; in particular
`num=-2500&num=-2503&num=-2502&num=-2501` bound to a scalar signed-integer
field yields -2501 in all four modes. -/
theorem scalar_last_write_wins :
    (∀ s k, urlencodedScalar s k =
        ((occurrences s k).getLast?).map fun p => p.2.getD []) ∧
    (∀ s k, duplicateScalar s k =
        ((occurrences s k).getLast?).map fun p => p.2.getD []) ∧
    (∀ s k, delimiterScalar s k =
        ((occurrences s k).getLast?).map fun p => p.2.getD []) ∧
    (∀ s k, bracketsScalar s k =
        ((bracketsOccurrences s k).getLast?).map fun p => p.2.getD []) ∧
    (urlencodedScalar (bytes "num=-2500&num=-2503&num=-2502&num=-2501")
        (bytes "num")).map bindScalarInt = some (.ok (-2501)) ∧
    (duplicateScalar (bytes "num=-2500&num=-2503&num=-2502&num=-2501")
        (bytes "num")).map bindScalarInt = some (.ok (-2501)) ∧
    (delimiterScalar (bytes "num=-2500&num=-2503&num=-2502&num=-2501")
        (bytes "num")).map bindScalarInt = some (.ok (-2501)) ∧
    (bracketsScalar (bytes "num=-2500&num=-2503&num=-2502&num=-2501")
        (bytes "num")).map bindScalarInt = some (.ok (-2501)) := by
  refine ⟨fun s k => ?_, fun s k => ?_, fun s k => ?_, fun s k => ?_,
    by decide, by decide, by decide, by decide⟩
  · rw [urlencodedScalar, urlencodedParse_get, Option.map_map]
    rfl
  · rw [duplicateScalar, duplicateRawSlices, duplicateParse_get]
    by_cases h : occurrences s k = []
    · simp [h]
    · rw [if_neg h]
      obtain ⟨x, hx⟩ := Option.isSome_iff_exists.mp (List.getLast?_isSome.mpr h)
      simp only [Option.map_some', intoSingleSlice, List.map_map, getLast?_map, hx]
      rfl
  · rw [delimiterScalar, delimiterParse_get, Option.map_map]
    rfl
  · rw [bracketsScalar, bracketsParse_get]
    by_cases h : bracketsOccurrences s k = []
    · simp [h]
    · rw [if_neg h]
      obtain ⟨x, hx⟩ := Option.isSome_iff_exists.mp (List.getLast?_isSome.mpr h)
      simp [hx]

/-- C4: under `Duplicate` mode every occurrence of a key is preserved, and
binding the key to a sequence yields all values in input order, not
re-sorted; `value=1&value=3&value=1337` bound to a sequence yields
`[1, 3, 1337]`. -/
theorem duplicate_sequence_order :
    (∀ s k, duplicateRawSlices s k =
        (if occurrences s k = [] then none
         else some ((occurrences s k).map fun p => p.2.getD []))) ∧
    duplicateSeqBind (bytes "value=1&value=3&value=1337") (bytes "value")
      = some (.ok [1, 3, 1337]) := by
  refine ⟨fun s k => ?_, by decide⟩
  rw [duplicateRawSlices, duplicateParse_get]
  by_cases h : occurrences s k = []
  · simp [h]
  · rw [if_neg h, if_neg h]
    simp [List.map_map]

/-- C5 counterexample to the claim as stated: a name-classified sub-key
does not get positioned before the number-classified entries — it makes
the whole sequence binding fail with `InvalidNumber`; and an empty (`[]`)
sub-key is classified as index 0, so it stays after an earlier explicit
`[0]` entry instead of preceding all number-classified entries. -/
theorem brackets_seq_claim_counterexample :
    bracketsSeqBind (bytes "value[x]=1&value[0]=2") (bytes "value")
      = some (.error .InvalidNumber) ∧
    bracketsSeqBind (bytes "value[0]=7&value[]=8") (bytes "value")
      = some (.ok [7, 8]) := by
  exact ⟨by decide, by decide⟩

/-- C5 (amended): when a bracket-path key's collected sub-entries are
bound to a sequence, each sub-key is classified as its numeric value when
it parses cleanly as an unsigned index, as 0 when it is empty or absent,
and a name-classified sub-key fails the binding with `InvalidNumber`; the
classified entries are stably sorted ascending by that number. -/
theorem brackets_seq_reconstruction :
    (∀ ps, (∃ p ∈ ps, subkeyIndex p = .error .InvalidNumber) →
        toSeqValues ps = .error .InvalidNumber) ∧
    (∀ ps l, toSeqValues ps = .ok l →
        List.Pairwise (fun a b : Nat × List Nat => a.1 ≤ b.1) l ∧
        ∃ vs, collectSeqValues ps = .ok vs ∧ l = sortByKey vs ∧ l.Perm vs) ∧
    bracketsSeqBind (bytes "value[3]=1337&value[2]=3&value[1]=1") (bytes "value")
      = some (.ok [1, 3, 1337]) ∧
    bracketsSeqBind (bytes "vec[1]=1337&vec=11") (bytes "vec")
      = some (.ok [11, 1337]) ∧
    bracketsSeqBind (bytes "value[]=1&value[]=3") (bytes "value")
      = some (.ok [1, 3]) := by
  refine ⟨fun ps h => ?_, fun ps l h => ?_, by decide, by decide, by decide⟩
  · rw [toSeqValues, collectSeqValues_error ps h]
    rfl
  · rw [toSeqValues] at h
    rcases hc : collectSeqValues ps with e | vs <;> rw [hc] at h
    · change Except.error e = Except.ok l at h
      cases h
    · change Except.ok (sortByKey vs) = Except.ok l at h
      have hl : l = sortByKey vs := (Except.ok.inj h).symm
      subst hl
      exact ⟨sortByKey_sorted vs, vs, rfl, rfl, sortByKey_perm vs⟩

/-- Witness for `brackets_seq_reconstruction`: the pair of
`value[x]=1` makes the binding fail, and the sortedness conclusion at a
concrete decode. -/
theorem brackets_seq_reconstruction_witness :
    toSeqValues [(⟨bytes "value", some (bytes "x]")⟩, some (bytes "1"))]
      = .error .InvalidNumber ∧
    List.Pairwise (fun a b : Nat × List Nat => a.1 ≤ b.1)
      (sortByKey [(3, bytes "1337"), (1, bytes "1")]) :=
  ⟨brackets_seq_reconstruction.1 _
    ⟨(⟨bytes "value", some (bytes "x]")⟩, some (bytes "1")), by decide, by decide⟩,
   ((brackets_seq_reconstruction.2.1 [(⟨bytes "v", some (bytes "3]")⟩, some (bytes "1337")),
      (⟨bytes "v", some (bytes "1]")⟩, some (bytes "1"))] _ (by decide)).1)⟩

/-- C6 (code bug): the offset translation of
`ValueDeserializer::index_before_decoding` does not add 2 per escape: its
escape test calls `parse_char` on the one-byte sub-slice
`slice[(cursor + 1)..(cursor + 2)]`, which indexes `bytes[1]` out of
bounds (a panic, modelled as `none`) whenever the byte after the `%` is a
hex digit — so on the value `%41%FF` with decoded-space offset 1 the code
panics, while the specification's translation yields offset 3. -/
theorem offset_translation_code_bug :
    indexBeforeDecoding (bytes "%41%FF") 1 = none ∧
    specOffsetTranslation (bytes "%41%FF") 1 = 3 := by
  constructor
  · simp [indexBeforeDecoding, indexBeforeDecodingGo, bytes, parse_char_slice, hexDigit]
  · decide

/-- C7: boolean parsing returns `true` exactly for the empty slice and the
literals `1`, `on`, `true`; `false` exactly for `0`, `off`, `false`; and
fails with `InvalidBoolean` for every other literal. -/
theorem bool_literal_table :
    (∀ s, parse_bool s = .ok true ↔
        (s = [] ∨ s = bytes "1" ∨ s = bytes "on" ∨ s = bytes "true")) ∧
    (∀ s, parse_bool s = .ok false ↔
        (s = bytes "0" ∨ s = bytes "off" ∨ s = bytes "false")) ∧
    (∀ s, parse_bool s = .error .InvalidBoolean ↔
        ¬(s = [] ∨ s = bytes "1" ∨ s = bytes "on" ∨ s = bytes "true" ∨
          s = bytes "0" ∨ s = bytes "off" ∨ s = bytes "false")) ∧
    parse_bool (bytes "bla") = .error .InvalidBoolean ∧
    parse_bool (bytes "onoff") = .error .InvalidBoolean := by
  refine ⟨fun s => ?_, fun s => ?_, fun s => ?_, by decide, by decide⟩
  all_goals constructor
  · intro h
    rw [parse_bool] at h
    split_ifs at h <;> simp_all
  · intro h
    rcases h with h | h | h | h <;> subst h <;> decide
  · intro h
    rw [parse_bool] at h
    split_ifs at h <;> simp_all
  · intro h
    rcases h with h | h | h <;> subst h <;> decide
  · intro h
    rw [parse_bool] at h
    split_ifs at h <;> simp_all
  · intro h
    rw [parse_bool]
    split_ifs <;> simp_all

/-- C8 counterexample to the claim as stated: `Delimiter` mode supports
sequences but never raises `InvalidLength`.  The claim's own four-element
repeated-key input bound at arity three under `Delimiter` mode fails with
kind `Other` (the repeated key leaves only `999`, which underfills the
arity); a four-token delimiter-split value bound at arity three binds
without any error (the final element receives the entire remainder
`1337|999`); a one-token value at arity three fails with kind `Other`,
not `InvalidLength`. -/
theorem tuple_arity_claim_counterexample :
    delimiterDeserializeTuple (bytes "value=1&value=3&value=1337&value=999")
        (bytes "value") 124 3 = some (.error .Other) ∧
    delimiterDeserializeTuple (bytes "value=1|3|1337|999") (bytes "value") 124 3
      = some (.ok [bytes "1", bytes "3", bytes "1337|999"]) ∧
    delimiterDeserializeTuple (bytes "value=999") (bytes "value") 124 3
      = some (.error .Other) :=
  ⟨by decide, by decide, by decide⟩

/-- C8 (amended): binding a fixed-arity tuple, tuple struct or array to a
collected list of values whose length differs from the requested arity
fails with `InvalidLength` in `Duplicate` mode, in the bracket-path
pair-vector binder and in `Brackets` mode; in `Delimiter` mode, however,
the sized iterator enforces no length: an overlong delimiter-split binds
without error (the final element receives the entire remainder of the
value) and an underfilled fixed-size target fails through the binding
protocol with kind `Other` — the `Delimiter` fixed-arity binder can only
error with kind `Other`, never `InvalidLength`. -/
theorem tuple_arity_enforced :
    (∀ (vals : List (List Nat)) size, vals.length ≠ size →
        intoSizedIterator vals size = .error .InvalidLength) ∧
    (∀ (vals : List (List Nat)) size, vals.length ≠ size →
        pairVecDeserializeTuple vals size = .error .InvalidLength) ∧
    (∀ ps l size, toSeqValues ps = .ok l → l.length ≠ size →
        bracketsDeserializeTuple ps size = .error .InvalidLength) ∧
    (duplicateRawSlices (bytes "value=1&value=3&value=1337&value=999")
        (bytes "value")).map (fun vs => intoSizedIterator vs 3)
      = some (.error .InvalidLength) ∧
    (∀ s k delim size e,
        delimiterDeserializeTuple s k delim size = some (.error e) →
        e = .Other) ∧
    delimiterDeserializeTuple (bytes "value=a|b|c") (bytes "value") 124 2
      = some (.ok [bytes "a", bytes "b|c"]) ∧
    delimiterDeserializeTuple (bytes "value=") (bytes "value") 124 3
      = some (.error .Other) := by
  refine ⟨fun vals size h => ?_, fun vals size h => ?_,
    fun ps l size h hl => ?_, by decide, fun s k delim size e he => ?_,
    by decide, by decide⟩
  · rw [intoSizedIterator, if_neg h]
  · rw [pairVecDeserializeTuple, if_neg h]
  · rw [bracketsDeserializeTuple, h]
    change (if l.length = size then pure l else throw .InvalidLength :
      Except ErrorKind (List (Nat × List Nat))) = _
    rw [if_neg hl]
    rfl
  · rw [delimiterDeserializeTuple] at he
    rcases ht : alistGet (delimiterParse s) k with _ | ov <;> rw [ht] at he
    · simp at he
    · simp only [Option.map_some', Option.some.injEq] at he
      split_ifs at he
      simp only [Except.error.injEq] at he
      exact he.symm

/-- Witness for `tuple_arity_enforced`: four collected values bound at
arity three in the modes that do enforce the arity, and the
`Delimiter`-mode error kind at a concrete underfilled input. -/
theorem tuple_arity_enforced_witness :
    intoSizedIterator [bytes "1", bytes "3", bytes "1337", bytes "999"] 3
      = .error .InvalidLength ∧
    pairVecDeserializeTuple [bytes "1", bytes "3", bytes "1337", bytes "999"] 3
      = .error .InvalidLength ∧
    ErrorKind.Other = ErrorKind.Other :=
  ⟨tuple_arity_enforced.1 _ 3 (by decide),
   tuple_arity_enforced.2.1 _ 3 (by decide),
   tuple_arity_enforced.2.2.2.2.1 (bytes "value=999") (bytes "value") 124 3
     .Other (by decide)⟩

/-- C9: when the query string fails to decode, the extractor with no
custom handler rejects the request with the fixed HTTP 400 response, and
with a custom handler configured the handler's response is used verbatim
instead. -/
theorem extractor_failure_behavior :
    (∀ cfg q e, decodeParamsN q = .error e →
        fromRequestParts cfg q =
          .error
            (match cfg.ehandler with
             | some h => h e
             | none => defaultQueryStringError)) ∧
    defaultQueryStringError = ⟨400, "Failed to deserialize query string"⟩ ∧
    fromRequestParts {} (bytes "n=string") = .error defaultQueryStringError := by
  refine ⟨fun cfg q e h => ?_, rfl, by decide⟩
  rw [fromRequestParts, h]

/-- Witness for `extractor_failure_behavior`: the default configuration
produces the fixed 400 response, a custom handler's 502 response is used
verbatim. -/
theorem extractor_failure_behavior_witness :
    fromRequestParts {} (bytes "n=string") = .error defaultQueryStringError ∧
    fromRequestParts ⟨.Duplicate, some fun _ => ⟨502, "Something went wrong"⟩⟩
        (bytes "n=string") = .error ⟨502, "Something went wrong"⟩ :=
  ⟨extractor_failure_behavior.1 {} (bytes "n=string") .InvalidNumber (by decide),
   extractor_failure_behavior.1 ⟨.Duplicate, some fun _ => ⟨502, "Something went wrong"⟩⟩
     (bytes "n=string") .InvalidNumber (by decide)⟩

/-- C10: only the first `=` of a pair separates key from value — the value
scan stops only at `&`, so later `=` bytes are part of the value; in
particular `a=b=c` parses as key `a` with value `b=c`, in the flat modes
and in bracket mode alike. -/
theorem value_scan_stops_only_at_amp :
    (∀ k v, (∀ c ∈ k, c ≠ 38 ∧ c ≠ 61) → (∀ c ∈ v, c ≠ 38) →
        flatPairParse (k ++ 61 :: v) = (k, some v)) ∧
    (∀ k v, (∀ c ∈ k, c ≠ 38 ∧ c ≠ 61 ∧ c ≠ 91 ∧ c ≠ 37) → (∀ c ∈ v, c ≠ 38) →
        bracketsPairParse (k ++ 61 :: v)
          = ((⟨k, none⟩, some v), k.length + (1 + v.length) + 1)) ∧
    flatPairs (bytes "a=b=c") = [(bytes "a", some (bytes "b=c"))] ∧
    bracketsPairs (bytes "a=b=c") = [(⟨bytes "a", none⟩, some (bytes "b=c"))] := by
  refine ⟨fun k v hk hv => ?_, fun k v hk hv => ?_, by decide, by decide⟩
  · have h1 : flatKeyParse (k ++ 61 :: v) = k := by
      rw [flatKeyParse, takeWhile_append_all _ _ _
        (fun c hc => by simp [(hk c hc).1, (hk c hc).2])]
      simp [List.takeWhile_cons]
    rw [flatPairParse, h1, List.drop_left]
    have h2 : flatValueParse (61 :: v) = some v := by
      rw [flatValueParse]
      rw [if_neg (by omega)]
      rw [takeWhile_all _ _ (fun c hc => by simp [hv c hc])]
    rw [h2]
  · have hkp : bracketsKeyParse (k ++ 61 :: v) = (⟨k, none⟩, k.length) := by
      rw [bracketsKeyParse]
      simpa using bracketsKeyParseGo_plain k v [] hk
    rw [bracketsPairParse, hkp]
    simp only [List.drop_left]
    have h2 : bracketsValueParse (61 :: v) = (some v, 1 + v.length) := by
      rw [bracketsValueParse]
      rw [if_neg (by omega)]
      rw [takeWhile_all _ _ (fun c hc => by simp [hv c hc])]
    rw [h2]

/-- Witness for `value_scan_stops_only_at_amp` at `a=b=c`. -/
theorem value_scan_stops_only_at_amp_witness :
    flatPairParse (bytes "a" ++ 61 :: bytes "b=c") = (bytes "a", some (bytes "b=c")) ∧
    bracketsPairParse (bytes "a" ++ 61 :: bytes "b=c")
      = ((⟨bytes "a", none⟩, some (bytes "b=c")),
         (bytes "a").length + (1 + (bytes "b=c").length) + 1) :=
  ⟨value_scan_stops_only_at_amp.1 (bytes "a") (bytes "b=c") (by decide) (by decide),
   value_scan_stops_only_at_amp.2.1 (bytes "a") (bytes "b=c") (by decide) (by decide)⟩

end SerdeQuerystring
